import Mathlib

/-!
Verification of MAGSplitter's input-loading module (`magsplitter/input_to_df.py`).

Shallow embedding conventions:
* A Python `str` line is a `List Char` (`Line`); indexing matches Python
  code-point indexing.
* Python exceptions (`IndexError` from `rxn_row[end_idx]`, `AttributeError`
  from `.append` on a non-list, `KeyError`) are modelled by `Option`/`Except`
  failure values.
* A Python dict is an association list in insertion order (`Rxn`); values are
  either a string or a list of strings (`FVal`), matching the dynamic types
  the parser stores.
* `pandas` is an external library: the fragment of its behaviour the code
  relies on is modelled explicitly where each loader is defined.
-/

namespace MAGSplitter

/-- A line of text, as its list of characters (a Python `str`). -/
abbrev Line := List Char

/-- The ASCII whitespace characters stripped by Python `str.rstrip()`. -/
def pyIsSpace (c : Char) : Bool :=
  c == ' ' || c == '\t' || c == '\n' || c == '\r' || c == '\x0b' || c == '\x0c'

/-- Python `str.rstrip()`: remove trailing whitespace characters. -/
def rstrip (l : Line) : Line :=
  (l.reverse.dropWhile pyIsSpace).reverse

/-- Position of the first tab character of a list, if any. -/
def findTab : List Char → Option Nat
  | [] => none
  | c :: cs => if c = '\t' then some 0 else (findTab cs).map (· + 1)

/-- Embeds `convert_rxn_row_list_format` (`input_to_df.py` lines 7-16).
The Python code starts `end_idx` at `1` and increments it until
`rxn_row[end_idx]` is a tab, then returns `[rxn_row[:end_idx], rxn_row]`.
Running off the end of the string raises `IndexError`, modelled as `none`.
Note the scan never inspects index 0, so a tab at position 0 is not found. -/
def convert_rxn_row_list_format (l : Line) : Option (Line × Line) :=
  match l with
  | [] => none
  | c :: cs => (findTab cs).map (fun k => (c :: cs.take k, c :: cs))

/-- The key (first component) `convert_rxn_row_list_format` extracts, if any. -/
def keyOf (l : Line) : Option Line :=
  (convert_rxn_row_list_format l).map Prod.fst

/-- The record-terminator line `"//"`. -/
def termLine : Line := ['/', '/']

/-- The key `"EC"`. -/
def keyEC : Line := ['E', 'C']

/-- The key `"METACYC"`. -/
def keyMETACYC : Line := ['M', 'E', 'T', 'A', 'C', 'Y', 'C']

/-- The dict key `"ec"` used for the EC accumulator list. -/
def keyEcLow : Line := ['e', 'c']

/-- The dict key `"metacyc"` used for the METACYC accumulator list. -/
def keyMcLow : Line := ['m', 'e', 't', 'a', 'c', 'y', 'c']

/-- The key `"ID"`. -/
def keyID : Line := ['I', 'D']

/-- The column name `"ORF_ID"`. -/
def keyORF_ID : Line := ['O', 'R', 'F', '_', 'I', 'D']

/-- The key `"PRODUCT-TYPE"`. -/
def keyPT : Line := ['P', 'R', 'O', 'D', 'U', 'C', 'T', '-', 'T', 'Y', 'P', 'E']

/-- The column name `"PRODUCT_TYPE"`. -/
def keyPTnew : Line := ['P', 'R', 'O', 'D', 'U', 'C', 'T', '_', 'T', 'Y', 'P', 'E']

/-- A value stored in a reaction record: the Python code stores either the
full line (a string) or a list of full lines (for the EC/METACYC
accumulators). -/
inductive FVal where
  | s : Line → FVal
  | l : List Line → FVal
deriving DecidableEq

/-- A reaction record: the Python dict `temp_rxn`, as an association list in
insertion order. -/
abbrev Rxn := List (Line × FVal)

/-- Python dict read `d[k]` (with `none` for a missing key). -/
def dictGet : Rxn → Line → Option FVal
  | [], _ => none
  | (k', v) :: rest, k => if k' = k then some v else dictGet rest k

/-- Python dict write `d[k] = v`: overwrite in place, or append a new entry. -/
def dictSet : Rxn → Line → FVal → Rxn
  | [], k, v => [(k, v)]
  | (k', v') :: rest, k, v =>
    if k' = k then (k, v) :: rest else (k', v') :: dictSet rest k v

/-- The fresh per-block record `{'ec': [], 'metacyc': []}` (line 39). -/
def rxnInit : Rxn := [(keyEcLow, FVal.l []), (keyMcLow, FVal.l [])]

/-- Whether `r['ec']` currently holds a list (so `.append` would succeed). -/
def ecList (r : Rxn) : Bool :=
  match dictGet r keyEcLow with
  | some (FVal.l _) => true
  | _ => false

/-- Whether `r['metacyc']` currently holds a list. -/
def mcList (r : Rxn) : Bool :=
  match dictGet r keyMcLow with
  | some (FVal.l _) => true
  | _ => false

/-- One iteration of the inner loop of `convert_pl_input_to_rxn_df`
(lines 41-49): split the line, then append to `'ec'`/`'metacyc'` for keys
`EC`/`METACYC`, else overwrite the key's entry.  `.append` on a value that
is no longer a list (it was overwritten by a line keyed `"ec"`/`"metacyc"`)
raises `AttributeError`, modelled as `none`. -/
def procLine (r : Rxn) (l : Line) : Option Rxn :=
  match convert_rxn_row_list_format l with
  | none => none
  | some (k, v) =>
    if k = keyEC then
      match dictGet r keyEcLow with
      | some (FVal.l xs) => some (dictSet r keyEcLow (FVal.l (xs ++ [v])))
      | _ => none
    else if k = keyMETACYC then
      match dictGet r keyMcLow with
      | some (FVal.l xs) => some (dictSet r keyMcLow (FVal.l (xs ++ [v])))
      | _ => none
    else
      some (dictSet r k (FVal.s v))

/-- Fold `procLine` over the body lines of one block. -/
def procBody : Rxn → List Line → Option Rxn
  | r, [] => some r
  | r, l :: ls =>
    match procLine r l with
    | none => none
    | some r' => procBody r' ls

/-- The two nested loops of `convert_pl_input_to_rxn_df` (lines 37-52) as a
single left-to-right pass.  The state is the current record `r` and the
accumulator `rxn_acc`.  Reaching end of input inside a block is the Python
`IndexError` from `pl_lines[end_idx]` (modelled `none`); a `"//"` line closes
the record, and a fresh record is started when lines remain. -/
def parseAux : List Line → Rxn → List Rxn → Option (List Rxn)
  | [], _, _ => none
  | l :: rest, r, acc =>
    if l = termLine then
      match rest with
      | [] => some (acc ++ [r])
      | _ :: _ => parseAux rest rxnInit (acc ++ [r])
    else
      match procLine r l with
      | none => none
      | some r' => parseAux rest r' acc

/-- The block-parsing loop of `convert_pl_input_to_rxn_df` over the already
right-stripped lines: an empty file yields an empty document, otherwise the
two-pointer loop runs from the first line. -/
def parseDoc : List Line → Option (List Rxn)
  | [] => some []
  | l :: rest => parseAux (l :: rest) rxnInit []

/-- Process a list of block bodies independently, each from a fresh record. -/
def procBlocks : List (List Line) → Option (List Rxn)
  | [] => some []
  | b :: bs =>
    match procBody rxnInit b with
    | none => none
    | some r => (procBlocks bs).map (r :: ·)

/-- The column rename `{"ID": "ORF_ID", "PRODUCT-TYPE": "PRODUCT_TYPE"}`
(lines 54-56) applied to one field label. -/
def renKey (k : Line) : Line :=
  if k = keyID then keyORF_ID else if k = keyPT then keyPTnew else k

/-- `df.rename` applied to one record: relabel its fields, keep its values. -/
def renameRxn (r : Rxn) : Rxn :=
  r.map (fun p => (renKey p.1, p.2))

/-- Embeds `convert_pl_input_to_rxn_df` (lines 19-56) on the file's raw lines:
each line is right-stripped (line 29), the block loop runs, and the two
columns are renamed.  A missing field of a record is an absent key (`NaN` in
the DataFrame). -/
def convert_pl_input_to_rxn_df (raws : List Line) : Option (List Rxn) :=
  (parseDoc (raws.map rstrip)).map (fun recs => recs.map renameRxn)

/-- Python `str.split('\t')`: split at every tab; the empty string yields
one empty field. -/
def splitTab : Line → List Line
  | [] => [[]]
  | c :: cs =>
    match splitTab cs with
    | [] => [[]]
    | s :: rest => if c = '\t' then [] :: s :: rest else (c :: s) :: rest

/-- The literal `"ID\t"` prepended to every ORF identifier. -/
def idPfx : Line := ['I', 'D', '\t']

/-- Embeds `convert_duplicate_orf_map_to_list` (lines 103-119): keep the raw
lines containing a tab, right-strip and tab-split each kept line, then
prepend `"ID\t"` to every field of every group. -/
def convert_duplicate_orf_map_to_list (raws : List Line) : List (List Line) :=
  (raws.filter (fun l => decide ('\t' ∈ l))).map
    (fun l => (splitTab (rstrip l)).map (fun o => idPfx ++ o))

/-- Outcome of `pd.read_csv(contig_mag_map, sep='\t', header=None)`:
`failed` when the call raises (absent file, empty file, tokenizing error),
otherwise a table with a fixed column count `w` and its rows. -/
inductive ReadResult where
  | failed : ReadResult
  | table : Nat → List (List String) → ReadResult

/-- Embeds `convert_contig_mag_map_to_df` (lines 86-100).  The `try` covers
only the `pd.read_csv` call: on failure an empty two-column frame is
substituted.  The assignment `df.columns = ['CONTIG_ID', 'BIN_ID']` runs
outside the `try` and raises `ValueError` (modelled `Except.error`) unless
the frame has exactly two columns.  The result is the projection
`df[['BIN_ID', 'CONTIG_ID']]` as (bin, contig) rows. -/
def convert_contig_mag_map_to_df : ReadResult → Except String (List (String × String))
  | ReadResult.failed => Except.ok []
  | ReadResult.table w rows =>
    if w = 2 then Except.ok (rows.map (fun row => (row.getD 1 "", row.getD 0 "")))
    else Except.error "Length mismatch"

/-- Whether an `Except` result is a success. -/
def exOk {α : Type} : Except String α → Bool
  | Except.ok _ => true
  | Except.error _ => false

/-- Executable per-block well-formedness: every body line splits at a tab
(at index ≥ 1), and no `EC`/`METACYC` line occurs after its accumulator
entry was overwritten by a line keyed `"ec"`/`"metacyc"`.  The flags `e`,
`m` record whether the `'ec'`/`'metacyc'` entries still hold lists. -/
def blockOkAux : Bool → Bool → List Line → Bool
  | _, _, [] => true
  | e, m, l :: ls =>
    match convert_rxn_row_list_format l with
    | none => false
    | some (k, _) =>
      if k = keyEC then e && blockOkAux e m ls
      else if k = keyMETACYC then m && blockOkAux e m ls
      else blockOkAux (e && !(decide (k = keyEcLow))) (m && !(decide (k = keyMcLow))) ls

/-- Well-formedness of one block body, starting from the fresh record. -/
def blockOk (b : List Line) : Bool := blockOkAux true true b

/-- The claim's well-formedness of a PF line sequence: a concatenation of
`"//"`-terminated blocks in which every body line differs from `"//"` and
contains a tab somewhere. -/
def wellFormedPF (ls : List Line) : Prop :=
  ∃ bodies : List (List Line),
    ls = (bodies.map (· ++ [termLine])).flatten ∧
    ∀ b ∈ bodies, ∀ l ∈ b, l ≠ termLine ∧ '\t' ∈ l

/-- Amended well-formedness of a PF line sequence: a concatenation of
`"//"`-terminated blocks whose bodies pass `blockOk`. -/
def wellFormedPFA (ls : List Line) : Prop :=
  ∃ bodies : List (List Line),
    ls = (bodies.map (· ++ [termLine])).flatten ∧
    ∀ b ∈ bodies, blockOk b = true


/-! ### Lemmas about the line splitter -/

theorem findTab_isSome {cs : List Char} : (findTab cs).isSome ↔ '\t' ∈ cs := by
  induction cs with
  | nil => simp [findTab]
  | cons c cs ih =>
    by_cases h : c = '\t'
    · simp [findTab, h]
    · have : ¬ ('\t' = c) := fun hh => h hh.symm
      cases hft : findTab cs <;>
        simp [findTab, h, hft, this, ← ih]

theorem findTab_first {cs : List Char} (h : '\t' ∈ cs) :
    ∃ u w, cs = u ++ '\t' :: w ∧ '\t' ∉ u ∧ findTab cs = some u.length := by
  induction cs with
  | nil => cases h
  | cons c cs ih =>
    by_cases hc : c = '\t'
    · exact ⟨[], cs, by simp [hc], by simp, by simp [findTab, hc]⟩
    · have h' : '\t' ∈ cs := by
        cases List.mem_cons.mp h with
        | inl h0 => exact absurd h0.symm hc
        | inr h0 => exact h0
      obtain ⟨u, w, hcs, hu, hft⟩ := ih h'
      refine ⟨c :: u, w, by simp [hcs], ?_, ?_⟩
      · intro hmem
        rcases List.mem_cons.mp hmem with h0 | h0
        · exact hc h0.symm
        · exact hu h0
      · simp [findTab, hc, hft]

theorem rowFmt_snd {l : Line} {p : Line × Line}
    (h : convert_rxn_row_list_format l = some p) : p.2 = l := by
  cases l with
  | nil => simp [convert_rxn_row_list_format] at h
  | cons c cs =>
    simp only [convert_rxn_row_list_format, Option.map_eq_some'] at h
    obtain ⟨a, _, hp⟩ := h
    rw [← hp]

theorem rowFmt_isSome {l : Line} :
    (convert_rxn_row_list_format l).isSome ↔ '\t' ∈ l.drop 1 := by
  cases l with
  | nil => simp [convert_rxn_row_list_format]
  | cons c cs =>
    rw [show (c :: cs).drop 1 = cs from rfl, ← findTab_isSome]
    cases hft : findTab cs <;> simp [convert_rxn_row_list_format, hft]

/-! ### Lemmas about dict reads and writes -/

theorem dictGet_set_same (r : Rxn) (k : Line) (v : FVal) :
    dictGet (dictSet r k v) k = some v := by
  induction r with
  | nil => simp [dictSet, dictGet]
  | cons p rest ih =>
    obtain ⟨k', v'⟩ := p
    by_cases h : k' = k <;> simp [dictSet, dictGet, h, ih]

theorem dictGet_set_other (r : Rxn) {k k' : Line} (h : k' ≠ k) (v : FVal) :
    dictGet (dictSet r k v) k' = dictGet r k' := by
  have h' : k ≠ k' := Ne.symm h
  induction r with
  | nil => simp [dictSet, dictGet, h']
  | cons p rest ih =>
    obtain ⟨k₀, v₀⟩ := p
    by_cases h0 : k₀ = k
    · subst h0
      simp [dictSet, dictGet, Ne.symm h]
    · by_cases h1 : k₀ = k' <;> simp [dictSet, dictGet, h0, h1, ih, h', h]

theorem dictGet_set_isSome (r : Rxn) (k k' : Line) (v : FVal)
    (h : (dictGet r k').isSome) : (dictGet (dictSet r k v) k').isSome := by
  by_cases hk : k' = k
  · subst hk; simp [dictGet_set_same]
  · rw [dictGet_set_other r hk]; exact h

/-! ### Evolution of the accumulator entries under one processed line -/

theorem ecList_set_s (r : Rxn) (k v : Line) :
    ecList (dictSet r k (FVal.s v)) = (ecList r && !(decide (k = keyEcLow))) := by
  by_cases hk : k = keyEcLow
  · subst hk; simp [ecList, dictGet_set_same]
  · rw [ecList, dictGet_set_other r (fun h => hk h.symm), ← ecList]
    simp [hk]

theorem mcList_set_s (r : Rxn) (k v : Line) :
    mcList (dictSet r k (FVal.s v)) = (mcList r && !(decide (k = keyMcLow))) := by
  by_cases hk : k = keyMcLow
  · subst hk; simp [mcList, dictGet_set_same]
  · rw [mcList, dictGet_set_other r (fun h => hk h.symm), ← mcList]
    simp [hk]

theorem ecLow_ne_mcLow : keyEcLow ≠ keyMcLow := by decide

theorem ecList_set_ecl (r : Rxn) (xs : List Line) :
    ecList (dictSet r keyEcLow (FVal.l xs)) = true := by
  simp [ecList, dictGet_set_same]

theorem mcList_set_ecl (r : Rxn) (xs : List Line) :
    mcList (dictSet r keyEcLow (FVal.l xs)) = mcList r := by
  rw [mcList, dictGet_set_other r ecLow_ne_mcLow.symm, ← mcList]

theorem mcList_set_mcl (r : Rxn) (xs : List Line) :
    mcList (dictSet r keyMcLow (FVal.l xs)) = true := by
  simp [mcList, dictGet_set_same]

theorem ecList_set_mcl (r : Rxn) (xs : List Line) :
    ecList (dictSet r keyMcLow (FVal.l xs)) = ecList r := by
  rw [ecList, dictGet_set_other r ecLow_ne_mcLow, ← ecList]

/-! ### One block succeeds exactly when `blockOkAux` accepts it -/

theorem procBody_isSome (body : List Line) : ∀ r : Rxn,
    (procBody r body).isSome = blockOkAux (ecList r) (mcList r) body := by
  induction body with
  | nil => intro r; simp [procBody, blockOkAux]
  | cons l ls ih =>
    intro r
    cases hrf : convert_rxn_row_list_format l with
    | none => simp [procBody, procLine, blockOkAux, hrf]
    | some p =>
      obtain ⟨k, v⟩ := p
      by_cases hEC : k = keyEC
      · subst hEC
        cases hec : dictGet r keyEcLow with
        | none =>
          have he : ecList r = false := by simp [ecList, hec]
          simp [procBody, procLine, blockOkAux, hrf, hec, he]
        | some fv =>
          cases fv with
          | s str =>
            have he : ecList r = false := by simp [ecList, hec]
            simp [procBody, procLine, blockOkAux, hrf, hec, he]
          | l xs =>
            have he : ecList r = true := by simp [ecList, hec]
            have h2 : procBody r (l :: ls) =
                procBody (dictSet r keyEcLow (FVal.l (xs ++ [v]))) ls := by
              simp [procBody, procLine, hrf, hec]
            have h3 : blockOkAux (ecList r) (mcList r) (l :: ls) =
                blockOkAux true (mcList r) ls := by
              simp [blockOkAux, hrf, he]
            rw [h2, h3, ih, ecList_set_ecl, mcList_set_ecl]
      · by_cases hMC : k = keyMETACYC
        · subst hMC
          cases hmc : dictGet r keyMcLow with
          | none =>
            have hm : mcList r = false := by simp [mcList, hmc]
            simp [procBody, procLine, blockOkAux, hrf, hmc, hm, hEC]
          | some fv =>
            cases fv with
            | s str =>
              have hm : mcList r = false := by simp [mcList, hmc]
              simp [procBody, procLine, blockOkAux, hrf, hmc, hm, hEC]
            | l xs =>
              have hm : mcList r = true := by simp [mcList, hmc]
              have h2 : procBody r (l :: ls) =
                  procBody (dictSet r keyMcLow (FVal.l (xs ++ [v]))) ls := by
                simp [procBody, procLine, hrf, hmc, hEC]
              have h3 : blockOkAux (ecList r) (mcList r) (l :: ls) =
                  blockOkAux (ecList r) true ls := by
                simp [blockOkAux, hrf, hm, hEC]
              rw [h2, h3, ih, ecList_set_mcl, mcList_set_mcl]
        · have h2 : procBody r (l :: ls) = procBody (dictSet r k (FVal.s v)) ls := by
            simp [procBody, procLine, hrf, hEC, hMC]
          have h3 : blockOkAux (ecList r) (mcList r) (l :: ls) =
              blockOkAux (ecList r && !(decide (k = keyEcLow)))
                (mcList r && !(decide (k = keyMcLow))) ls := by
            simp [blockOkAux, hrf, hEC, hMC]
          rw [h2, h3, ih, ecList_set_s, mcList_set_s]

/-! ### The block loop: accumulator, decomposition and reconstruction -/

theorem parseAux_acc (ls : List Line) : ∀ (r : Rxn) (acc : List Rxn),
    parseAux ls r acc = (parseAux ls r []).map (fun recs => acc ++ recs) := by
  induction ls with
  | nil => intro r acc; simp [parseAux]
  | cons l rest ih =>
    intro r acc
    by_cases hl : l = termLine
    · subst hl
      cases rest with
      | nil => simp [parseAux]
      | cons x xs =>
        have e1 : parseAux (termLine :: x :: xs) r acc =
            parseAux (x :: xs) rxnInit (acc ++ [r]) := rfl
        have e2 : parseAux (termLine :: x :: xs) r [] =
            parseAux (x :: xs) rxnInit ([] ++ [r]) := rfl
        rw [e1, e2, ih rxnInit (acc ++ [r]), ih rxnInit ([] ++ [r])]
        cases parseAux (x :: xs) rxnInit [] <;> simp
    · cases hpl : procLine r l with
      | none => simp [parseAux, hl, hpl]
      | some r' =>
        simp only [parseAux, if_neg hl, hpl]
        exact ih r' acc

theorem parseAux_block_nil : ∀ (body : List Line), termLine ∉ body →
    ∀ (r : Rxn) (acc : List Rxn),
    parseAux (body ++ [termLine]) r acc =
      (procBody r body).map (fun r' => acc ++ [r']) := by
  intro body
  induction body with
  | nil =>
    intro _ r acc
    simp only [List.nil_append, procBody, Option.map_some']
    rfl
  | cons l body' ih =>
    intro hb r acc
    have hl : l ≠ termLine := by
      intro h
      apply hb
      rw [← h]
      exact List.mem_cons_self l body'
    have hb' : termLine ∉ body' := fun h => hb (List.mem_cons_of_mem l h)
    cases hpl : procLine r l with
    | none => simp [parseAux, hl, hpl, procBody]
    | some r1 =>
      have e1 : (l :: body') ++ [termLine] = l :: (body' ++ [termLine]) := rfl
      rw [e1]
      have e2 : parseAux (l :: (body' ++ [termLine])) r acc =
          parseAux (body' ++ [termLine]) r1 acc := by
        simp [parseAux, hl, hpl]
      have e3 : procBody r (l :: body') = procBody r1 body' := by
        simp [procBody, hpl]
      rw [e2, e3, ih hb' r1 acc]

theorem parseAux_block_cons : ∀ (body : List Line), termLine ∉ body →
    ∀ (x : Line) (xs : List Line) (r : Rxn) (acc : List Rxn),
    parseAux (body ++ termLine :: x :: xs) r acc =
      (procBody r body).bind (fun r' => parseAux (x :: xs) rxnInit (acc ++ [r'])) := by
  intro body
  induction body with
  | nil =>
    intro _ x xs r acc
    simp only [List.nil_append, procBody, Option.some_bind]
    rfl
  | cons l body' ih =>
    intro hb x xs r acc
    have hl : l ≠ termLine := by
      intro h
      apply hb
      rw [← h]
      exact List.mem_cons_self l body'
    have hb' : termLine ∉ body' := fun h => hb (List.mem_cons_of_mem l h)
    cases hpl : procLine r l with
    | none => simp [parseAux, hl, hpl, procBody]
    | some r1 =>
      have e1 : (l :: body') ++ termLine :: x :: xs =
          l :: (body' ++ termLine :: x :: xs) := rfl
      rw [e1]
      have e2 : parseAux (l :: (body' ++ termLine :: x :: xs)) r acc =
          parseAux (body' ++ termLine :: x :: xs) r1 acc := by
        simp [parseAux, hl, hpl]
      have e3 : procBody r (l :: body') = procBody r1 body' := by
        simp [procBody, hpl]
      rw [e2, e3, ih hb' x xs r1 acc]

theorem parseDoc_ne_nil {ls : List Line} (h : ls ≠ []) :
    parseDoc ls = parseAux ls rxnInit [] := by
  cases ls with
  | nil => exact absurd rfl h
  | cons l rest => rfl

theorem flatten_blocks_eq_nil {bodies : List (List Line)}
    (h : (bodies.map (· ++ [termLine])).flatten = []) : bodies = [] := by
  cases bodies with
  | nil => rfl
  | cons b bs => simp [List.append_eq_nil] at h

theorem parseAux_decomp : ∀ (n : Nat) (ls : List Line) (r : Rxn) (acc recs : List Rxn),
    ls.length ≤ n → parseAux ls r acc = some recs →
    ∃ body bodies r' recs',
      ls = (body ++ [termLine]) ++ ((bodies.map (· ++ [termLine])).flatten) ∧
      termLine ∉ body ∧ (∀ b ∈ bodies, termLine ∉ b) ∧
      procBody r body = some r' ∧ procBlocks bodies = some recs' ∧
      recs = acc ++ r' :: recs' := by
  intro n
  induction n with
  | zero =>
    intro ls r acc recs hlen hpa
    have hnil : ls = [] := List.length_eq_zero.mp (Nat.le_zero.mp hlen)
    subst hnil
    simp [parseAux] at hpa
  | succ n ihn =>
    intro ls r acc recs hlen hpa
    cases ls with
    | nil => simp [parseAux] at hpa
    | cons l rest =>
      have hlen' : rest.length ≤ n := by
        have := hlen
        simp only [List.length_cons] at this
        exact Nat.le_of_succ_le_succ this
      by_cases hl : l = termLine
      · subst hl
        cases rest with
        | nil =>
          have hr : acc ++ [r] = recs := by simpa [parseAux] using hpa
          exact ⟨[], [], r, [], by simp, by simp, by simp, rfl, rfl, by simp [← hr]⟩
        | cons x xs =>
          have hpa' : parseAux (x :: xs) rxnInit (acc ++ [r]) = some recs := by
            simpa [parseAux] using hpa
          obtain ⟨body₂, bodies₂, r₂, recs₂, hdec, hb₂, hbs₂, hpb₂, hblk₂, hrecs⟩ :=
            ihn (x :: xs) rxnInit (acc ++ [r]) recs hlen' hpa'
          refine ⟨[], body₂ :: bodies₂, r, r₂ :: recs₂, ?_, by simp, ?_, rfl, ?_, ?_⟩
          · simp [hdec]
          · intro b hbmem
            rcases List.mem_cons.mp hbmem with h | h
            · rw [h]; exact hb₂
            · exact hbs₂ b h
          · simp [procBlocks, hpb₂, hblk₂]
          · simp [hrecs]
      · cases hpl : procLine r l with
        | none => simp [parseAux, hl, hpl] at hpa
        | some r1 =>
          have hpa' : parseAux rest r1 acc = some recs := by
            simpa [parseAux, hl, hpl] using hpa
          obtain ⟨body₁, bodies₁, r', recs', hdec, hb₁, hbs₁, hpb₁, hblk₁, hrecs⟩ :=
            ihn rest r1 acc recs hlen' hpa'
          refine ⟨l :: body₁, bodies₁, r', recs', ?_, ?_, hbs₁, ?_, hblk₁, hrecs⟩
          · simp [hdec]
          · intro hmem
            rcases List.mem_cons.mp hmem with h | h
            · exact hl h.symm
            · exact hb₁ h
          · simp [procBody, hpl, hpb₁]

theorem parseDoc_decomp {ls : List Line} {recs : List Rxn}
    (h : parseDoc ls = some recs) :
    ∃ bodies, ls = (bodies.map (· ++ [termLine])).flatten ∧
      (∀ b ∈ bodies, termLine ∉ b) ∧ procBlocks bodies = some recs := by
  cases ls with
  | nil =>
    refine ⟨[], by simp, by simp, ?_⟩
    simpa [parseDoc, procBlocks] using h
  | cons l rest =>
    have hpa : parseAux (l :: rest) rxnInit [] = some recs := h
    obtain ⟨body, bodies, r', recs', hdec, hb, hbs, hpb, hblk, hrecs⟩ :=
      parseAux_decomp (l :: rest).length (l :: rest) rxnInit [] recs le_rfl hpa
    refine ⟨body :: bodies, ?_, ?_, ?_⟩
    · simp [hdec]
    · intro b hbmem
      rcases List.mem_cons.mp hbmem with hh | hh
      · rw [hh]; exact hb
      · exact hbs b hh
    · simp [procBlocks, hpb, hblk, hrecs]

theorem parseDoc_blocks : ∀ (bodies : List (List Line)),
    (∀ b ∈ bodies, termLine ∉ b) →
    parseDoc ((bodies.map (· ++ [termLine])).flatten) = procBlocks bodies := by
  intro bodies
  induction bodies with
  | nil => intro _; simp [parseDoc, procBlocks]
  | cons b bs ih =>
    intro hb
    have hbb : termLine ∉ b := hb b (List.mem_cons_self b bs)
    have hbs : ∀ x ∈ bs, termLine ∉ x := fun x hx => hb x (List.mem_cons_of_mem b hx)
    have hflat : ((b :: bs).map (· ++ [termLine])).flatten =
        b ++ termLine :: (bs.map (· ++ [termLine])).flatten := by
      simp
    rw [hflat]
    cases hrest : (bs.map (· ++ [termLine])).flatten with
    | nil =>
      have hbs0 : bs = [] := flatten_blocks_eq_nil hrest
      subst hbs0
      have hne : b ++ [termLine] ≠ [] := by simp
      rw [parseDoc_ne_nil hne, parseAux_block_nil b hbb]
      cases hpb : procBody rxnInit b <;> simp [procBlocks, hpb]
    | cons x xs =>
      have hne : b ++ termLine :: x :: xs ≠ [] := by cases b <;> simp
      rw [parseDoc_ne_nil hne, parseAux_block_cons b hbb]
      cases hpb : procBody rxnInit b with
      | none => simp [procBlocks, hpb]
      | some r' =>
        simp only [Option.some_bind]
        rw [parseAux_acc (x :: xs) rxnInit ([] ++ [r'])]
        have hpd : parseAux (x :: xs) rxnInit [] = parseDoc (x :: xs) := rfl
        rw [hpd, ← hrest, ih hbs]
        simp only [procBlocks, hpb]
        cases procBlocks bs <;> simp

theorem procBlocks_isSome : ∀ (bodies : List (List Line)),
    (procBlocks bodies).isSome = true ↔
      ∀ b ∈ bodies, (procBody rxnInit b).isSome = true := by
  intro bodies
  induction bodies with
  | nil => simp [procBlocks]
  | cons b bs ih =>
    cases hpb : procBody rxnInit b with
    | none => simp [procBlocks, hpb]
    | some r =>
      cases hblk : procBlocks bs with
      | none => simp [procBlocks, hpb, hblk, ← ih]
      | some recs => simp [procBlocks, hpb, hblk, ← ih]

theorem rowFmt_termLine : convert_rxn_row_list_format termLine = none := rfl

theorem blockOk_no_term : ∀ (body : List Line) (e m : Bool),
    blockOkAux e m body = true → termLine ∉ body := by
  intro body
  induction body with
  | nil => intro e m _ h; cases h
  | cons l ls ih =>
    intro e m h hmem
    cases hrf : convert_rxn_row_list_format l with
    | none => simp [blockOkAux, hrf] at h
    | some p =>
      obtain ⟨k, v⟩ := p
      rcases List.mem_cons.mp hmem with hh | hh
      · rw [← hh] at hrf
        rw [rowFmt_termLine] at hrf
        cases hrf
      · by_cases hEC : k = keyEC
        · subst hEC
          simp [blockOkAux, hrf] at h
          exact ih e m h.2 hh
        · by_cases hMC : k = keyMETACYC
          · subst hMC
            simp [blockOkAux, hrf, hEC] at h
            exact ih e m h.2 hh
          · simp [blockOkAux, hrf, hEC, hMC] at h
            exact ih _ _ h hh

/-! ### Shape of one processed line, and keys left unchanged -/

theorem procLine_shape {r r' : Rxn} {l : Line} (h : procLine r l = some r') :
    ∃ k v, r' = dictSet r k v := by
  unfold procLine at h
  cases hrf : convert_rxn_row_list_format l with
  | none => simp [hrf] at h
  | some p =>
    obtain ⟨k, v⟩ := p
    simp only [hrf] at h
    by_cases hEC : k = keyEC
    · simp only [if_pos hEC] at h
      cases hec : dictGet r keyEcLow with
      | none => simp [hec] at h
      | some fv =>
        cases fv with
        | s str => simp [hec] at h
        | l xs =>
          simp only [hec] at h
          exact ⟨keyEcLow, FVal.l (xs ++ [v]), (Option.some.inj h).symm⟩
    · simp only [if_neg hEC] at h
      by_cases hMC : k = keyMETACYC
      · simp only [if_pos hMC] at h
        cases hmc : dictGet r keyMcLow with
        | none => simp [hmc] at h
        | some fv =>
          cases fv with
          | s str => simp [hmc] at h
          | l xs =>
            simp only [hmc] at h
            exact ⟨keyMcLow, FVal.l (xs ++ [v]), (Option.some.inj h).symm⟩
      · simp only [if_neg hMC] at h
        exact ⟨k, FVal.s v, (Option.some.inj h).symm⟩

theorem procBody_presence (body : List Line) : ∀ (r r' : Rxn),
    procBody r body = some r' → ∀ k, (dictGet r k).isSome → (dictGet r' k).isSome := by
  induction body with
  | nil =>
    intro r r' h k hk
    simp only [procBody, Option.some.injEq] at h
    rw [← h]
    exact hk
  | cons l ls ih =>
    intro r r' h k hk
    cases hpl : procLine r l with
    | none => simp [procBody, hpl] at h
    | some r1 =>
      have h' : procBody r1 ls = some r' := by simpa [procBody, hpl] using h
      obtain ⟨k₀, v₀, hr1⟩ := procLine_shape hpl
      apply ih r1 r' h' k
      rw [hr1]
      exact dictGet_set_isSome r k₀ k v₀ hk

theorem procBody_ec_unchanged (body : List Line) : ∀ (r r' : Rxn),
    procBody r body = some r' →
    (∀ l ∈ body, keyOf l ≠ some keyEC ∧ keyOf l ≠ some keyEcLow) →
    dictGet r' keyEcLow = dictGet r keyEcLow := by
  induction body with
  | nil =>
    intro r r' h _
    simp only [procBody, Option.some.injEq] at h
    rw [← h]
  | cons l ls ih =>
    intro r r' h hcl
    obtain ⟨h1, h2⟩ := hcl l (List.mem_cons_self l ls)
    have hcl' : ∀ x ∈ ls, keyOf x ≠ some keyEC ∧ keyOf x ≠ some keyEcLow :=
      fun x hx => hcl x (List.mem_cons_of_mem l hx)
    cases hpl : procLine r l with
    | none => simp [procBody, hpl] at h
    | some r1 =>
      have h' : procBody r1 ls = some r' := by simpa [procBody, hpl] using h
      rw [ih r1 r' h' hcl']
      unfold procLine at hpl
      cases hrf : convert_rxn_row_list_format l with
      | none => simp [hrf] at hpl
      | some p =>
        obtain ⟨k₀, v⟩ := p
        have hk₀ : keyOf l = some k₀ := by simp [keyOf, hrf]
        simp only [hrf] at hpl
        have hEC : ¬ (k₀ = keyEC) := fun hh => h1 (by rw [hk₀, hh])
        simp only [if_neg hEC] at hpl
        by_cases hMC : k₀ = keyMETACYC
        · simp only [if_pos hMC] at hpl
          cases hmc : dictGet r keyMcLow with
          | none => simp [hmc] at hpl
          | some fv =>
            cases fv with
            | s str => simp [hmc] at hpl
            | l xs =>
              simp only [hmc] at hpl
              rw [(Option.some.inj hpl).symm, dictGet_set_other r ecLow_ne_mcLow]
        · simp only [if_neg hMC] at hpl
          have hne : keyEcLow ≠ k₀ := fun hh => h2 (by rw [hk₀, ← hh])
          rw [(Option.some.inj hpl).symm, dictGet_set_other r hne]

theorem procBody_mc_unchanged (body : List Line) : ∀ (r r' : Rxn),
    procBody r body = some r' →
    (∀ l ∈ body, keyOf l ≠ some keyMETACYC ∧ keyOf l ≠ some keyMcLow) →
    dictGet r' keyMcLow = dictGet r keyMcLow := by
  induction body with
  | nil =>
    intro r r' h _
    simp only [procBody, Option.some.injEq] at h
    rw [← h]
  | cons l ls ih =>
    intro r r' h hcl
    obtain ⟨h1, h2⟩ := hcl l (List.mem_cons_self l ls)
    have hcl' : ∀ x ∈ ls, keyOf x ≠ some keyMETACYC ∧ keyOf x ≠ some keyMcLow :=
      fun x hx => hcl x (List.mem_cons_of_mem l hx)
    cases hpl : procLine r l with
    | none => simp [procBody, hpl] at h
    | some r1 =>
      have h' : procBody r1 ls = some r' := by simpa [procBody, hpl] using h
      rw [ih r1 r' h' hcl']
      unfold procLine at hpl
      cases hrf : convert_rxn_row_list_format l with
      | none => simp [hrf] at hpl
      | some p =>
        obtain ⟨k₀, v⟩ := p
        have hk₀ : keyOf l = some k₀ := by simp [keyOf, hrf]
        simp only [hrf] at hpl
        have hMC : ¬ (k₀ = keyMETACYC) := fun hh => h1 (by rw [hk₀, hh])
        by_cases hEC : k₀ = keyEC
        · simp only [if_pos hEC] at hpl
          cases hec : dictGet r keyEcLow with
          | none => simp [hec] at hpl
          | some fv =>
            cases fv with
            | s str => simp [hec] at hpl
            | l xs =>
              simp only [hec] at hpl
              rw [(Option.some.inj hpl).symm, dictGet_set_other r ecLow_ne_mcLow.symm]
        · simp only [if_neg hEC, if_neg hMC] at hpl
          have hne : keyMcLow ≠ k₀ := fun hh => h2 (by rw [hk₀, ← hh])
          rw [(Option.some.inj hpl).symm, dictGet_set_other r hne]

/-! ### The rename step -/

theorem renKey_eq_orf (k : Line) : renKey k = keyORF_ID ↔ (k = keyID ∨ k = keyORF_ID) := by
  by_cases h1 : k = keyID
  · subst h1; simp [renKey]
  · by_cases h2 : k = keyPT
    · subst h2; decide
    · simp [renKey, h1, h2]

theorem renKey_eq_pt (k : Line) : renKey k = keyPTnew ↔ (k = keyPT ∨ k = keyPTnew) := by
  by_cases h1 : k = keyID
  · subst h1; decide
  · by_cases h2 : k = keyPT
    · subst h2; decide
    · simp [renKey, h1, h2]

theorem renKey_ne_id (k : Line) : renKey k ≠ keyID := by
  by_cases h1 : k = keyID
  · subst h1; decide
  · by_cases h2 : k = keyPT
    · subst h2; decide
    · simp [renKey, h1, h2]

theorem renKey_ne_pt (k : Line) : renKey k ≠ keyPT := by
  by_cases h1 : k = keyID
  · subst h1; decide
  · by_cases h2 : k = keyPT
    · subst h2; decide
    · simp [renKey, h1, h2]

theorem renKey_fixed (k : Line) (h1 : k ≠ keyID) (h2 : k ≠ keyPT) : renKey k = k := by
  simp [renKey, h1, h2]

theorem dictGet_rename_fixed (r : Rxn) (t : Line)
    (ht1 : t ≠ keyID) (ht2 : t ≠ keyPT) (ht3 : t ≠ keyORF_ID) (ht4 : t ≠ keyPTnew) :
    dictGet (renameRxn r) t = dictGet r t := by
  induction r with
  | nil => rfl
  | cons p rest ih =>
    obtain ⟨k, v⟩ := p
    have hren : (renKey k = t) ↔ (k = t) := by
      constructor
      · intro hh
        by_cases h1 : k = keyID
        · rw [h1] at hh
          have he : renKey keyID = keyORF_ID := by decide
          rw [he] at hh
          exact absurd hh.symm ht3
        · by_cases h2 : k = keyPT
          · rw [h2] at hh
            have he : renKey keyPT = keyPTnew := by decide
            rw [he] at hh
            exact absurd hh.symm ht4
          · rwa [renKey_fixed k h1 h2] at hh
      · intro hh
        rw [hh, renKey_fixed t ht1 ht2]
    by_cases hk : k = t
    · subst hk
      have hrk : renKey k = k := hren.mpr rfl
      simp [renameRxn, dictGet, hrk]
    · have hnk : ¬ (renKey k = t) := fun hh => hk (hren.mp hh)
      simp only [renameRxn, List.map_cons, dictGet, if_neg hnk, if_neg hk]
      exact ih

/-! ### Relating `procBlocks` to its block list -/

theorem procBlocks_spec : ∀ (bodies : List (List Line)) (recs : List Rxn),
    procBlocks bodies = some recs →
    List.Forall₂ (fun b rec => procBody rxnInit b = some rec) bodies recs := by
  intro bodies
  induction bodies with
  | nil =>
    intro recs h
    simp only [procBlocks, Option.some.injEq] at h
    rw [← h]
    exact List.Forall₂.nil
  | cons b bs ih =>
    intro recs h
    cases hpb : procBody rxnInit b with
    | none => simp [procBlocks, hpb] at h
    | some r =>
      cases hblk : procBlocks bs with
      | none => simp [procBlocks, hpb, hblk] at h
      | some recs' =>
        have : recs = r :: recs' := by
          simp only [procBlocks, hpb, hblk, Option.map_some', Option.some.injEq] at h
          exact h.symm
        rw [this]
        exact List.Forall₂.cons hpb (ih recs' hblk)

theorem procBlocks_mem : ∀ (bodies : List (List Line)) (recs : List Rxn),
    procBlocks bodies = some recs →
    ∀ r ∈ recs, ∃ b ∈ bodies, procBody rxnInit b = some r := by
  intro bodies
  induction bodies with
  | nil =>
    intro recs h r hr
    simp only [procBlocks, Option.some.injEq] at h
    rw [← h] at hr
    cases hr
  | cons b bs ih =>
    intro recs h r hr
    cases hpb : procBody rxnInit b with
    | none => simp [procBlocks, hpb] at h
    | some r0 =>
      cases hblk : procBlocks bs with
      | none => simp [procBlocks, hpb, hblk] at h
      | some recs' =>
        have hrecs : recs = r0 :: recs' := by
          simp only [procBlocks, hpb, hblk, Option.map_some', Option.some.injEq] at h
          exact h.symm
        rw [hrecs] at hr
        rcases List.mem_cons.mp hr with hh | hh
        · exact ⟨b, List.mem_cons_self b bs, by rw [← hh] at hpb; exact hpb⟩
        · obtain ⟨b', hb', hpb'⟩ := ih recs' hblk r hh
          exact ⟨b', List.mem_cons_of_mem b hb', hpb'⟩

theorem forall₂_map_self {α β : Type} (xs : List α) (f : α → β) :
    List.Forall₂ (fun x y => y = f x) xs (xs.map f) := by
  induction xs with
  | nil => exact List.Forall₂.nil
  | cons x xs ih => exact List.Forall₂.cons rfl ih

theorem forall₂_map_right {α β γ : Type} {R : α → β → Prop} {as : List α} {bs : List β}
    (h : List.Forall₂ R as bs) (f : β → γ) :
    List.Forall₂ (fun a c => ∃ b, R a b ∧ c = f b) as (bs.map f) := by
  induction h with
  | nil => exact List.Forall₂.nil
  | cons hr _ ih => exact List.Forall₂.cons ⟨_, hr, rfl⟩ ih

/-! ### Success of the whole parse, and the last line -/

theorem parseDoc_isSome_iff (ls : List Line) :
    (∃ recs, parseDoc ls = some recs) ↔ wellFormedPFA ls := by
  constructor
  · rintro ⟨recs, h⟩
    obtain ⟨bodies, hdec, hb, hblk⟩ := parseDoc_decomp h
    refine ⟨bodies, hdec, ?_⟩
    intro b hbm
    have h2 : (procBlocks bodies).isSome = true := by simp [hblk]
    have h1 : (procBody rxnInit b).isSome = true :=
      (procBlocks_isSome bodies).mp h2 b hbm
    have h3 := procBody_isSome b rxnInit
    rw [h1] at h3
    unfold blockOk
    rw [show ecList rxnInit = true from rfl, show mcList rxnInit = true from rfl] at h3
    exact h3.symm
  · rintro ⟨bodies, hdec, hb⟩
    have hterm : ∀ b ∈ bodies, termLine ∉ b := fun b hbm =>
      blockOk_no_term b true true (hb b hbm)
    rw [hdec, parseDoc_blocks bodies hterm]
    have hsome : (procBlocks bodies).isSome = true := by
      rw [procBlocks_isSome]
      intro b hbm
      rw [procBody_isSome b rxnInit]
      rw [show ecList rxnInit = true from rfl, show mcList rxnInit = true from rfl]
      exact hb b hbm
    exact Option.isSome_iff_exists.mp hsome

theorem flatten_blocks_getLast : ∀ (bodies : List (List Line)), bodies ≠ [] →
    ((bodies.map (· ++ [termLine])).flatten).getLast? = some termLine
  | [], h => absurd rfl h
  | [b], _ => by
    have hx : (([b].map (· ++ [termLine])).flatten) = b ++ [termLine] := by simp
    rw [hx]
    exact List.getLast?_concat b
  | b :: b2 :: bs, _ => by
    have hx : (((b :: b2 :: bs).map (· ++ [termLine])).flatten) =
        (b ++ [termLine]) ++ (((b2 :: bs).map (· ++ [termLine])).flatten) := by simp
    rw [hx, List.getLast?_append_of_ne_nil]
    · exact flatten_blocks_getLast (b2 :: bs) (by simp)
    · intro hnil
      have h0 := flatten_blocks_eq_nil hnil
      simp at h0

/-- The last element of a cons cell, in `getD` form. -/
theorem getLast?_cons_eq {α : Type} : ∀ (xs : List α) (a : α),
    (a :: xs).getLast? = some (xs.getLast?.getD a)
  | [], _ => rfl
  | x :: xs, a => by
    rw [List.getLast?_cons_cons, getLast?_cons_eq xs x]
    simp

/-! ### Field contents of one parsed block -/

theorem procBody_fields : ∀ (body : List Line) (r r' : Rxn),
    procBody r body = some r' →
    (∀ l ∈ body, keyOf l ≠ some keyEcLow ∧ keyOf l ≠ some keyMcLow) →
    ∀ (exs mxs : List Line),
      dictGet r keyEcLow = some (FVal.l exs) →
      dictGet r keyMcLow = some (FVal.l mxs) →
      dictGet r' keyEcLow =
        some (FVal.l (exs ++ body.filter (fun x => decide (keyOf x = some keyEC)))) ∧
      dictGet r' keyMcLow =
        some (FVal.l (mxs ++ body.filter (fun x => decide (keyOf x = some keyMETACYC)))) ∧
      ∀ k : Line, k ≠ keyEC → k ≠ keyMETACYC → k ≠ keyEcLow → k ≠ keyMcLow →
        dictGet r' k =
          match (body.filter (fun x => decide (keyOf x = some k))).getLast? with
          | some lst => some (FVal.s lst)
          | none => dictGet r k := by
  intro body
  induction body with
  | nil =>
    intro r r' h _ exs mxs hec hmc
    simp only [procBody, Option.some.injEq] at h
    subst h
    refine ⟨by simpa using hec, by simpa using hmc, ?_⟩
    intro k _ _ _ _
    simp
  | cons l ls ih =>
    intro r r' h hcl exs mxs hec hmc
    obtain ⟨hcl1, hcl2⟩ := hcl l (List.mem_cons_self l ls)
    have hcl' : ∀ x ∈ ls, keyOf x ≠ some keyEcLow ∧ keyOf x ≠ some keyMcLow :=
      fun x hx => hcl x (List.mem_cons_of_mem l hx)
    cases hpl : procLine r l with
    | none => simp [procBody, hpl] at h
    | some r1 =>
      have h' : procBody r1 ls = some r' := by simpa [procBody, hpl] using h
      unfold procLine at hpl
      cases hrf : convert_rxn_row_list_format l with
      | none => simp [hrf] at hpl
      | some p =>
        obtain ⟨k₀, v⟩ := p
        have hk₀ : keyOf l = some k₀ := by simp [keyOf, hrf]
        have hv : v = l := by simpa using rowFmt_snd hrf
        simp only [hrf] at hpl
        by_cases hEC : k₀ = keyEC
        · subst hEC
          rw [if_pos rfl] at hpl
          simp only [hec] at hpl
          have hr1 : r1 = dictSet r keyEcLow (FVal.l (exs ++ [v])) :=
            (Option.some.inj hpl).symm
          obtain ⟨ihec, ihmc, ihk⟩ := ih r1 r' h' hcl' (exs ++ [v]) mxs
            (by rw [hr1]; exact dictGet_set_same r keyEcLow _)
            (by rw [hr1, dictGet_set_other r ecLow_ne_mcLow.symm]; exact hmc)
          refine ⟨?_, ?_, ?_⟩
          · rw [ihec]
            have hfil : (l :: ls).filter (fun x => decide (keyOf x = some keyEC)) =
                l :: ls.filter (fun x => decide (keyOf x = some keyEC)) := by
              simp [List.filter_cons, hk₀]
            rw [hfil, hv]
            simp
          · rw [ihmc]
            have hfil : (l :: ls).filter (fun x => decide (keyOf x = some keyMETACYC)) =
                ls.filter (fun x => decide (keyOf x = some keyMETACYC)) := by
              have hne : ¬ (keyEC = keyMETACYC) := by decide
              simp [List.filter_cons, hk₀, hne]
            rw [hfil]
          · intro k hk1 hk2 hk3 hk4
            have hfil : (l :: ls).filter (fun x => decide (keyOf x = some k)) =
                ls.filter (fun x => decide (keyOf x = some k)) := by
              simp [List.filter_cons, hk₀, Ne.symm hk1]
            rw [hfil, ihk k hk1 hk2 hk3 hk4]
            have hset : dictGet r1 k = dictGet r k := by
              rw [hr1]
              exact dictGet_set_other r hk3 _
            cases hlast : (ls.filter (fun x => decide (keyOf x = some k))).getLast? <;>
              simp [hlast, hset]
        · by_cases hMC : k₀ = keyMETACYC
          · subst hMC
            rw [if_neg hEC, if_pos rfl] at hpl
            simp only [hmc] at hpl
            have hr1 : r1 = dictSet r keyMcLow (FVal.l (mxs ++ [v])) :=
              (Option.some.inj hpl).symm
            obtain ⟨ihec, ihmc, ihk⟩ := ih r1 r' h' hcl' exs (mxs ++ [v])
              (by rw [hr1, dictGet_set_other r ecLow_ne_mcLow]; exact hec)
              (by rw [hr1]; exact dictGet_set_same r keyMcLow _)
            refine ⟨?_, ?_, ?_⟩
            · rw [ihec]
              have hfil : (l :: ls).filter (fun x => decide (keyOf x = some keyEC)) =
                  ls.filter (fun x => decide (keyOf x = some keyEC)) := by
                simp [List.filter_cons, hk₀, hEC]
              rw [hfil]
            · rw [ihmc]
              have hfil : (l :: ls).filter (fun x => decide (keyOf x = some keyMETACYC)) =
                  l :: ls.filter (fun x => decide (keyOf x = some keyMETACYC)) := by
                simp [List.filter_cons, hk₀]
              rw [hfil, hv]
              simp
            · intro k hk1 hk2 hk3 hk4
              have hfil : (l :: ls).filter (fun x => decide (keyOf x = some k)) =
                  ls.filter (fun x => decide (keyOf x = some k)) := by
                simp [List.filter_cons, hk₀, Ne.symm hk2]
              rw [hfil, ihk k hk1 hk2 hk3 hk4]
              have hset : dictGet r1 k = dictGet r k := by
                rw [hr1]
                exact dictGet_set_other r hk4 _
              cases hlast : (ls.filter (fun x => decide (keyOf x = some k))).getLast? <;>
                simp [hlast, hset]
          · rw [if_neg hEC, if_neg hMC] at hpl
            have hr1 : r1 = dictSet r k₀ (FVal.s v) := (Option.some.inj hpl).symm
            have hne1 : k₀ ≠ keyEcLow := fun hh => hcl1 (by rw [hk₀, hh])
            have hne2 : k₀ ≠ keyMcLow := fun hh => hcl2 (by rw [hk₀, hh])
            obtain ⟨ihec, ihmc, ihk⟩ := ih r1 r' h' hcl' exs mxs
              (by rw [hr1, dictGet_set_other r (Ne.symm hne1)]; exact hec)
              (by rw [hr1, dictGet_set_other r (Ne.symm hne2)]; exact hmc)
            refine ⟨?_, ?_, ?_⟩
            · rw [ihec]
              have hfil : (l :: ls).filter (fun x => decide (keyOf x = some keyEC)) =
                  ls.filter (fun x => decide (keyOf x = some keyEC)) := by
                simp [List.filter_cons, hk₀, hEC]
              rw [hfil]
            · rw [ihmc]
              have hfil : (l :: ls).filter (fun x => decide (keyOf x = some keyMETACYC)) =
                  ls.filter (fun x => decide (keyOf x = some keyMETACYC)) := by
                simp [List.filter_cons, hk₀, hMC]
              rw [hfil]
            · intro k hk1 hk2 hk3 hk4
              by_cases hkk : k = k₀
              · subst hkk
                have hfil : (l :: ls).filter (fun x => decide (keyOf x = some k)) =
                    l :: ls.filter (fun x => decide (keyOf x = some k)) := by
                  simp [List.filter_cons, hk₀]
                rw [hfil, ihk k hk1 hk2 hk3 hk4, getLast?_cons_eq]
                have hget : dictGet r1 k = some (FVal.s l) := by
                  rw [hr1, hv]
                  exact dictGet_set_same r k _
                cases hlast : (ls.filter (fun x => decide (keyOf x = some k))).getLast? <;>
                  simp [hlast, hget]
              · have hfil : (l :: ls).filter (fun x => decide (keyOf x = some k)) =
                    ls.filter (fun x => decide (keyOf x = some k)) := by
                  simp [List.filter_cons, hk₀, Ne.symm hkk]
                rw [hfil, ihk k hk1 hk2 hk3 hk4]
                have hset : dictGet r1 k = dictGet r k := by
                  rw [hr1]
                  exact dictGet_set_other r hkk _
                cases hlast : (ls.filter (fun x => decide (keyOf x = some k))).getLast? <;>
                  simp [hlast, hset]

/-! ### Remaining helpers: the fresh record, splitting, stripping, renaming -/

theorem dictGet_rxnInit_other (k : Line) (h1 : k ≠ keyEcLow) (h2 : k ≠ keyMcLow) :
    dictGet rxnInit k = none := by
  simp [rxnInit, dictGet, Ne.symm h1, Ne.symm h2]

theorem splitTab_no_tab (l : Line) (h : '\t' ∉ l) : splitTab l = [l] := by
  induction l with
  | nil => rfl
  | cons c cs ih =>
    have hc : ¬ (c = '\t') := by
      intro hh
      rw [hh] at h
      exact h (List.mem_cons_self _ _)
    have h' : '\t' ∉ cs := fun hh => h (List.mem_cons_of_mem c hh)
    simp [splitTab, ih h', hc]

theorem rstrip_append_tab_nl (core : Line) (h : rstrip core = core) :
    rstrip (core ++ ['\t', '\n']) = core := by
  unfold rstrip at h ⊢
  rw [List.reverse_append]
  have e1 : (['\t', '\n'] : Line).reverse = ['\n', '\t'] := rfl
  rw [e1]
  have p1 : pyIsSpace '\n' = true := rfl
  have p2 : pyIsSpace '\t' = true := rfl
  have e2 : List.dropWhile pyIsSpace (['\n', '\t'] ++ core.reverse) =
      List.dropWhile pyIsSpace core.reverse := by
    simp [List.dropWhile_cons, p1, p2]
  rw [e2]
  exact h

theorem mem_rename_orf (r : Rxn) (v : FVal) :
    (keyORF_ID, v) ∈ renameRxn r ↔ ((keyID, v) ∈ r ∨ (keyORF_ID, v) ∈ r) := by
  constructor
  · intro hm
    obtain ⟨q, hq1, hq2⟩ := List.mem_map.mp hm
    obtain ⟨qk, qv⟩ := q
    have h1 : renKey qk = keyORF_ID := by
      have := congrArg Prod.fst hq2
      simpa using this
    have h2 : qv = v := by
      have := congrArg Prod.snd hq2
      simpa using this
    rcases (renKey_eq_orf qk).mp h1 with hh | hh
    · left
      rw [← h2, ← hh]
      exact hq1
    · right
      rw [← h2, ← hh]
      exact hq1
  · intro hm
    rcases hm with hh | hh
    · have hmem := List.mem_map_of_mem (fun p : Line × FVal => (renKey p.1, p.2)) hh
      have e : renKey keyID = keyORF_ID := by decide
      rw [show ((fun p : Line × FVal => (renKey p.1, p.2)) (keyID, v)) =
        (renKey keyID, v) from rfl, e] at hmem
      exact hmem
    · have hmem := List.mem_map_of_mem (fun p : Line × FVal => (renKey p.1, p.2)) hh
      have e : renKey keyORF_ID = keyORF_ID := by decide
      rw [show ((fun p : Line × FVal => (renKey p.1, p.2)) (keyORF_ID, v)) =
        (renKey keyORF_ID, v) from rfl, e] at hmem
      exact hmem

theorem mem_rename_pt (r : Rxn) (v : FVal) :
    (keyPTnew, v) ∈ renameRxn r ↔ ((keyPT, v) ∈ r ∨ (keyPTnew, v) ∈ r) := by
  constructor
  · intro hm
    obtain ⟨q, hq1, hq2⟩ := List.mem_map.mp hm
    obtain ⟨qk, qv⟩ := q
    have h1 : renKey qk = keyPTnew := by
      have := congrArg Prod.fst hq2
      simpa using this
    have h2 : qv = v := by
      have := congrArg Prod.snd hq2
      simpa using this
    rcases (renKey_eq_pt qk).mp h1 with hh | hh
    · left
      rw [← h2, ← hh]
      exact hq1
    · right
      rw [← h2, ← hh]
      exact hq1
  · intro hm
    rcases hm with hh | hh
    · have hmem := List.mem_map_of_mem (fun p : Line × FVal => (renKey p.1, p.2)) hh
      have e : renKey keyPT = keyPTnew := by decide
      rw [show ((fun p : Line × FVal => (renKey p.1, p.2)) (keyPT, v)) =
        (renKey keyPT, v) from rfl, e] at hmem
      exact hmem
    · have hmem := List.mem_map_of_mem (fun p : Line × FVal => (renKey p.1, p.2)) hh
      have e : renKey keyPTnew = keyPTnew := by decide
      rw [show ((fun p : Line × FVal => (renKey p.1, p.2)) (keyPTnew, v)) =
        (renKey keyPTnew, v) from rfl, e] at hmem
      exact hmem

/-! ### Claim theorems -/

/-- C1: for every well-formed PF input — stripped lines decomposing into
`"//"`-terminated blocks — `convert_pl_input_to_rxn_df` is order-preserving:
the document equals the blocks processed independently in order, and its i-th
record is built from exactly the lines of the i-th block. -/
theorem C1_pf_order_preserving (raws : List Line) (bodies : List (List Line))
    (hdec : raws.map rstrip = (bodies.map (· ++ [termLine])).flatten)
    (hb : ∀ b ∈ bodies, termLine ∉ b) :
    convert_pl_input_to_rxn_df raws =
      (procBlocks bodies).map (fun recs => recs.map renameRxn) ∧
    ∀ recs, convert_pl_input_to_rxn_df raws = some recs →
      List.Forall₂
        (fun b rec => ∃ pre, procBody rxnInit b = some pre ∧ rec = renameRxn pre)
        bodies recs := by
  have heq : convert_pl_input_to_rxn_df raws =
      (procBlocks bodies).map (fun recs => recs.map renameRxn) := by
    unfold convert_pl_input_to_rxn_df
    rw [hdec, parseDoc_blocks bodies hb]
  refine ⟨heq, ?_⟩
  intro recs hrecs
  rw [heq] at hrecs
  cases hblk : procBlocks bodies with
  | none => simp [hblk] at hrecs
  | some recs0 =>
    rw [hblk] at hrecs
    simp only [Option.map_some', Option.some.injEq] at hrecs
    rw [← hrecs]
    exact forall₂_map_right (procBlocks_spec bodies recs0 hblk) renameRxn

/-- C1 witness: a two-block document, evaluated concretely. -/
theorem C1_pf_order_preserving_witness :
    convert_pl_input_to_rxn_df [['I','D','\t','X'], termLine, ['E','C','\t','e'], termLine] =
      (procBlocks [[['I','D','\t','X']], [['E','C','\t','e']]]).map
        (fun recs => recs.map renameRxn) :=
  (C1_pf_order_preserving [['I','D','\t','X'], termLine, ['E','C','\t','e'], termLine]
    [[['I','D','\t','X']], [['E','C','\t','e']]] rfl (by decide)).1

/-- C2 counterexample: a readable contig–bin table with one column (a file
whose lines have no tab) makes the loader raise at the column assignment,
instead of substituting an empty relation. -/
theorem C2_recovery_cex :
    convert_contig_mag_map_to_df (ReadResult.table 1 [["contig_1"]]) =
      Except.error "Length mismatch" := rfl

/-- C2 amended: when `pd.read_csv` itself raises (absent, empty, or
untokenizable file) an empty relation is substituted, but a readable table
succeeds exactly when it has two columns; any other width raises. -/
theorem C2_recovery_amended :
    convert_contig_mag_map_to_df ReadResult.failed = Except.ok [] ∧
    ∀ (w : Nat) (rows : List (List String)),
      exOk (convert_contig_mag_map_to_df (ReadResult.table w rows)) = true ↔ w = 2 := by
  refine ⟨rfl, ?_⟩
  intro w rows
  by_cases hw : w = 2 <;> simp [convert_contig_mag_map_to_df, exOk, hw]

/-- C3 counterexample: the line `"\tA"` contains a tab, but the splitter
raises (returns `none`) instead of returning a pair, because its scan starts
at index 1. -/
theorem C3_first_tab_cex :
    convert_rxn_row_list_format ['\t', 'A'] = none ∧ '\t' ∈ (['\t', 'A'] : Line) :=
  ⟨rfl, by decide⟩

/-- C3 amended: every line with a tab at some index ≥ 1 is split at the first
such tab: the key is the prefix strictly before it (which may itself start
with a tab at index 0), and the second component is the whole line. -/
theorem C3_first_tab_amended (l : Line) (h : '\t' ∈ l.drop 1) :
    ∃ a b, l = a ++ '\t' :: b ∧ a ≠ [] ∧ '\t' ∉ a.drop 1 ∧
      convert_rxn_row_list_format l = some (a, l) := by
  cases l with
  | nil => simp at h
  | cons c cs =>
    have h' : '\t' ∈ cs := h
    obtain ⟨u, w, hcs, hu, hft⟩ := findTab_first h'
    refine ⟨c :: u, w, by rw [hcs]; rfl, by simp, by simpa using hu, ?_⟩
    show (findTab cs).map (fun k => (c :: cs.take k, c :: cs)) = some (c :: u, c :: cs)
    rw [hft, Option.map_some']
    have ht : cs.take u.length = u := by
      rw [hcs]
      exact List.take_left u ('\t' :: w)
    rw [ht]

/-- C3 witness: `"A\tB"` splits into key `"A"` and the whole line. -/
theorem C3_first_tab_witness :
    '\t' ∈ (['A', '\t', 'B'] : Line).drop 1 ∧
    (∃ a b, (['A', '\t', 'B'] : Line) = a ++ '\t' :: b ∧ a ≠ [] ∧ '\t' ∉ a.drop 1 ∧
      convert_rxn_row_list_format ['A', '\t', 'B'] = some (a, ['A', '\t', 'B'])) :=
  ⟨by decide, C3_first_tab_amended ['A', '\t', 'B'] (by decide)⟩

/-- C4 counterexample: in the block `["EC\ta", "ec\tx"]` the `EC` line is
first appended to the record's `'ec'` sequence, but the later line keyed
`"ec"` overwrites that sequence with a plain string, so the `EC` line is not
kept appended — refuting "never overwritten". -/
theorem C4_key_policy_cex :
    parseDoc [['E','C','\t','a'], ['e','c','\t','x'], termLine] =
      some [[(keyEcLow, FVal.s ['e','c','\t','x']), (keyMcLow, FVal.l [])]] ∧
    keyOf ['E','C','\t','a'] = some keyEC ∧
    dictGet [(keyEcLow, FVal.s ['e','c','\t','x']), (keyMcLow, FVal.l [])] keyEcLow =
      some (FVal.s ['e','c','\t','x']) :=
  ⟨rfl, rfl, rfl⟩

/-- C4 amended: within one block none of whose lines is keyed `"ec"` or
`"metacyc"`, every `EC` line is appended in source order to the `'ec'`
sequence and every `METACYC` line to `'metacyc'`; for any other key only the
last occurrence is kept. -/
theorem C4_key_policy_amended (body : List Line) (recs : List Rxn)
    (hb : termLine ∉ body)
    (hcl : ∀ l ∈ body, keyOf l ≠ some keyEcLow ∧ keyOf l ≠ some keyMcLow)
    (h : parseDoc (body ++ [termLine]) = some recs) :
    ∃ r, recs = [r] ∧
      dictGet r keyEcLow =
        some (FVal.l (body.filter (fun x => decide (keyOf x = some keyEC)))) ∧
      dictGet r keyMcLow =
        some (FVal.l (body.filter (fun x => decide (keyOf x = some keyMETACYC)))) ∧
      ∀ k : Line, k ≠ keyEC → k ≠ keyMETACYC → k ≠ keyEcLow → k ≠ keyMcLow →
        dictGet r k =
          ((body.filter (fun x => decide (keyOf x = some k))).getLast?).map FVal.s := by
  have hne : body ++ [termLine] ≠ [] := by simp
  rw [parseDoc_ne_nil hne, parseAux_block_nil body hb rxnInit []] at h
  cases hpb : procBody rxnInit body with
  | none => simp [hpb] at h
  | some r =>
    rw [hpb] at h
    simp only [Option.map_some', Option.some.injEq, List.nil_append] at h
    refine ⟨r, h.symm, ?_⟩
    obtain ⟨hec, hmc, hk⟩ := procBody_fields body rxnInit r hpb hcl [] [] rfl rfl
    refine ⟨by simpa using hec, by simpa using hmc, ?_⟩
    intro k h1 h2 h3 h4
    rw [hk k h1 h2 h3 h4, dictGet_rxnInit_other k h3 h4]
    cases (body.filter (fun x => decide (keyOf x = some k))).getLast? <;> simp

/-- C4 witness: a block with two `EC` lines, one `METACYC` line and a
repeated other key `F`, evaluated concretely. -/
theorem C4_key_policy_witness :
    dictGet [(keyEcLow, FVal.l [['E','C','\t','a'], ['E','C','\t','b']]),
        (keyMcLow, FVal.l [['M','E','T','A','C','Y','C','\t','m']]),
        (['F'], FVal.s ['F','\t','2'])] keyEcLow =
      some (FVal.l [['E','C','\t','a'], ['E','C','\t','b']]) ∧
    dictGet [(keyEcLow, FVal.l [['E','C','\t','a'], ['E','C','\t','b']]),
        (keyMcLow, FVal.l [['M','E','T','A','C','Y','C','\t','m']]),
        (['F'], FVal.s ['F','\t','2'])] keyMcLow =
      some (FVal.l [['M','E','T','A','C','Y','C','\t','m']]) ∧
    dictGet [(keyEcLow, FVal.l [['E','C','\t','a'], ['E','C','\t','b']]),
        (keyMcLow, FVal.l [['M','E','T','A','C','Y','C','\t','m']]),
        (['F'], FVal.s ['F','\t','2'])] ['F'] =
      some (FVal.s ['F','\t','2']) := by
  obtain ⟨r, hr, hec, hmc, hk⟩ :=
    C4_key_policy_amended
      [['E','C','\t','a'], ['F','\t','1'], ['F','\t','2'],
        ['M','E','T','A','C','Y','C','\t','m'], ['E','C','\t','b']]
      [[(keyEcLow, FVal.l [['E','C','\t','a'], ['E','C','\t','b']]),
        (keyMcLow, FVal.l [['M','E','T','A','C','Y','C','\t','m']]),
        (['F'], FVal.s ['F','\t','2'])]]
      (by decide) (by decide) rfl
  have hr0 : [(keyEcLow, FVal.l [['E','C','\t','a'], ['E','C','\t','b']]),
      (keyMcLow, FVal.l [['M','E','T','A','C','Y','C','\t','m']]),
      (['F'], FVal.s ['F','\t','2'])] = r := by
    injection hr
  rw [hr0]
  exact ⟨hec, hmc, hk ['F'] (by decide) (by decide) (by decide) (by decide)⟩

/-- C5 counterexample: the input `["\tX", "//"]` is a single properly
`"//"`-terminated block whose line contains a tab — not malformed in either
of the claim's two ways — yet parsing fails, because the tab sits at index 0
where the scan never looks. -/
theorem C5_parse_failure_cex :
    convert_pl_input_to_rxn_df [['\t', 'X'], termLine] = none ∧
    wellFormedPF [['\t', 'X'], termLine] :=
  ⟨rfl, ⟨[[['\t', 'X']]], rfl, by decide⟩⟩

/-- C5 amended: after per-line right-stripping, parsing fails exactly when
the lines are not a concatenation of `"//"`-terminated blocks in which every
body line splits at a tab at index ≥ 1 and no `EC`/`METACYC` line follows an
overwrite of its accumulator entry by a line keyed `"ec"`/`"metacyc"`. -/
theorem C5_parse_failure_amended (raws : List Line) :
    convert_pl_input_to_rxn_df raws = none ↔ ¬ wellFormedPFA (raws.map rstrip) := by
  rw [← parseDoc_isSome_iff]
  unfold convert_pl_input_to_rxn_df
  constructor
  · intro hnone hex
    obtain ⟨recs, hrecs⟩ := hex
    rw [hrecs] at hnone
    simp at hnone
  · intro hnex
    cases hp : parseDoc (raws.map rstrip) with
    | none => rfl
    | some recs => exact absurd ⟨recs, hp⟩ hnex

/-- C6 counterexample: a block declaring neither `ID` nor `PRODUCT-TYPE`
parses successfully into a record that has no `ORF_ID` and no `PRODUCT_TYPE`
field, refuting "present in every record". -/
theorem C6_rename_cex :
    convert_pl_input_to_rxn_df [['F','\t','x'], termLine] =
      some [[(keyEcLow, FVal.l []), (keyMcLow, FVal.l []),
        (['F'], FVal.s ['F','\t','x'])]] ∧
    dictGet [(keyEcLow, FVal.l []), (keyMcLow, FVal.l []),
        (['F'], FVal.s ['F','\t','x'])] keyORF_ID = none ∧
    dictGet [(keyEcLow, FVal.l []), (keyMcLow, FVal.l []),
        (['F'], FVal.s ['F','\t','x'])] keyPTnew = none :=
  ⟨rfl, rfl, rfl⟩

/-- C6 amended: post-processing renames field `ID` to `ORF_ID` and
`PRODUCT-TYPE` to `PRODUCT_TYPE`: no output record keeps a field labelled
`ID` or `PRODUCT-TYPE`, and a record carries `ORF_ID` (resp. `PRODUCT_TYPE`)
with value `v` exactly when its pre-rename record carried `ID` or `ORF_ID`
(resp. `PRODUCT-TYPE` or `PRODUCT_TYPE`) with value `v`; the fields are not
guaranteed present in every record. -/
theorem C6_rename_amended (raws : List Line) (recs : List Rxn)
    (h : convert_pl_input_to_rxn_df raws = some recs) :
    ∃ pres, parseDoc (raws.map rstrip) = some pres ∧ recs = pres.map renameRxn ∧
      (∀ r ∈ recs, ∀ p ∈ r, p.1 ≠ keyID ∧ p.1 ≠ keyPT) ∧
      (∀ r ∈ pres, ∀ v : FVal,
        ((keyORF_ID, v) ∈ renameRxn r ↔ ((keyID, v) ∈ r ∨ (keyORF_ID, v) ∈ r)) ∧
        ((keyPTnew, v) ∈ renameRxn r ↔ ((keyPT, v) ∈ r ∨ (keyPTnew, v) ∈ r))) := by
  unfold convert_pl_input_to_rxn_df at h
  cases hp : parseDoc (raws.map rstrip) with
  | none => simp [hp] at h
  | some pres =>
    rw [hp] at h
    simp only [Option.map_some', Option.some.injEq] at h
    refine ⟨pres, rfl, h.symm, ?_, ?_⟩
    · intro r hr p hp2
      rw [← h] at hr
      obtain ⟨r0, _, hr0⟩ := List.mem_map.mp hr
      rw [← hr0] at hp2
      obtain ⟨q, _, hq⟩ := List.mem_map.mp hp2
      rw [← hq]
      exact ⟨renKey_ne_id q.1, renKey_ne_pt q.1⟩
    · intro r _ v
      exact ⟨mem_rename_orf r v, mem_rename_pt r v⟩

/-- C6 witness: the parsed record of the block `["ID\to"]` carries no `ID`
field after the rename. -/
theorem C6_rename_witness :
    (keyID, FVal.s ['I','D','\t','o']) ∉
      [(keyEcLow, FVal.l []), (keyMcLow, FVal.l []),
        (keyORF_ID, FVal.s ['I','D','\t','o'])] := by
  intro hmem
  obtain ⟨pres, h1, h2, h3, h4⟩ :=
    C6_rename_amended [['I','D','\t','o'], termLine]
      [[(keyEcLow, FVal.l []), (keyMcLow, FVal.l []),
        (keyORF_ID, FVal.s ['I','D','\t','o'])]] rfl
  exact (h3 _ (List.mem_singleton.mpr rfl) _ hmem).1 rfl

/-- C7: the duplicate-ORF loader skips exactly the lines with no tab, turns
each kept line (in order) into the group of its tab-separated fields of the
right-stripped line, and prefixes every field with `"ID\t"`. -/
theorem C7_dup_loader (raws : List Line) :
    List.Forall₂ (fun l g => g = (splitTab (rstrip l)).map (fun o => idPfx ++ o))
      (raws.filter (fun l => decide ('\t' ∈ l)))
      (convert_duplicate_orf_map_to_list raws) ∧
    ∀ g ∈ convert_duplicate_orf_map_to_list raws, ∀ f ∈ g, f.take 3 = idPfx := by
  constructor
  · unfold convert_duplicate_orf_map_to_list
    exact forall₂_map_self _ _
  · intro g hg f hf
    unfold convert_duplicate_orf_map_to_list at hg
    obtain ⟨l, _, hl⟩ := List.mem_map.mp hg
    rw [← hl] at hf
    obtain ⟨o, _, ho⟩ := List.mem_map.mp hf
    rw [← ho]
    exact List.take_left idPfx o

/-- C8: every parsed record carries the `'ec'` and `'metacyc'` fields; when
the (stripped) input has no `EC`-keyed line (and no `"ec"`-keyed overwrite),
`'ec'` is still present and equals the empty sequence, and likewise for
`'metacyc'`. -/
theorem C8_ec_metacyc_init (raws : List Line) (recs : List Rxn)
    (h : convert_pl_input_to_rxn_df raws = some recs) :
    ∀ r ∈ recs,
      ((dictGet r keyEcLow).isSome ∧ (dictGet r keyMcLow).isSome) ∧
      ((∀ l ∈ raws.map rstrip, keyOf l ≠ some keyEC ∧ keyOf l ≠ some keyEcLow) →
        dictGet r keyEcLow = some (FVal.l [])) ∧
      ((∀ l ∈ raws.map rstrip, keyOf l ≠ some keyMETACYC ∧ keyOf l ≠ some keyMcLow) →
        dictGet r keyMcLow = some (FVal.l [])) := by
  intro r hr
  unfold convert_pl_input_to_rxn_df at h
  cases hp : parseDoc (raws.map rstrip) with
  | none => simp [hp] at h
  | some pres =>
    rw [hp] at h
    simp only [Option.map_some', Option.some.injEq] at h
    rw [← h] at hr
    obtain ⟨r0, hr0mem, hr0⟩ := List.mem_map.mp hr
    obtain ⟨bodies, hdec, hbterm, hblk⟩ := parseDoc_decomp hp
    obtain ⟨b, hbmem, hpb⟩ := procBlocks_mem bodies pres hblk r0 hr0mem
    have hget_ec : dictGet r keyEcLow = dictGet r0 keyEcLow := by
      rw [← hr0]
      exact dictGet_rename_fixed r0 keyEcLow (by decide) (by decide) (by decide) (by decide)
    have hget_mc : dictGet r keyMcLow = dictGet r0 keyMcLow := by
      rw [← hr0]
      exact dictGet_rename_fixed r0 keyMcLow (by decide) (by decide) (by decide) (by decide)
    have hsub : ∀ l ∈ b, l ∈ raws.map rstrip := by
      intro l hl
      rw [hdec, List.mem_flatten]
      exact ⟨b ++ [termLine], List.mem_map_of_mem _ hbmem, List.mem_append_left _ hl⟩
    refine ⟨⟨?_, ?_⟩, ?_, ?_⟩
    · rw [hget_ec]
      exact procBody_presence b rxnInit r0 hpb keyEcLow (by rfl)
    · rw [hget_mc]
      exact procBody_presence b rxnInit r0 hpb keyMcLow (by rfl)
    · intro hno
      rw [hget_ec,
        procBody_ec_unchanged b rxnInit r0 hpb (fun l hl => hno l (hsub l hl))]
      rfl
    · intro hno
      rw [hget_mc,
        procBody_mc_unchanged b rxnInit r0 hpb (fun l hl => hno l (hsub l hl))]
      rfl

/-- C8 witness: the record of a block declaring neither `EC` nor `METACYC`
still carries both accumulator fields, as empty sequences. -/
theorem C8_ec_metacyc_init_witness :
    dictGet [(keyEcLow, FVal.l []), (keyMcLow, FVal.l []),
        (['A'], FVal.s ['A','\t','x'])] keyEcLow = some (FVal.l []) ∧
    dictGet [(keyEcLow, FVal.l []), (keyMcLow, FVal.l []),
        (['A'], FVal.s ['A','\t','x'])] keyMcLow = some (FVal.l []) := by
  have h := C8_ec_metacyc_init [['A','\t','x'], termLine]
    [[(keyEcLow, FVal.l []), (keyMcLow, FVal.l []),
      (['A'], FVal.s ['A','\t','x'])]] rfl
  have h2 := h _ (List.mem_singleton.mpr rfl)
  exact ⟨h2.2.1 (by decide), h2.2.2 (by decide)⟩

/-- C9: a successful parse requires the (stripped) line sequence to end
exactly at the final `"//"` terminator; any trailing material makes the run
fail instead. -/
theorem C9_ends_at_terminator (raws : List Line) (recs : List Rxn)
    (h : convert_pl_input_to_rxn_df raws = some recs) (hne : raws ≠ []) :
    (raws.map rstrip).getLast? = some termLine := by
  unfold convert_pl_input_to_rxn_df at h
  obtain ⟨recs0, h0⟩ : ∃ r0, parseDoc (raws.map rstrip) = some r0 := by
    cases hp : parseDoc (raws.map rstrip) with
    | none => simp [hp] at h
    | some r0 => exact ⟨r0, rfl⟩
  obtain ⟨bodies, hdec, hb, hblk⟩ := parseDoc_decomp h0
  have hbne : bodies ≠ [] := by
    intro hb0
    subst hb0
    simp at hdec
    exact hne hdec
  rw [hdec]
  exact flatten_blocks_getLast bodies hbne

/-- C9 witness: a well-terminated one-block file, evaluated concretely. -/
theorem C9_ends_at_terminator_witness :
    (([['I','D','\t','x'], termLine] : List Line).map rstrip).getLast? = some termLine :=
  C9_ends_at_terminator [['I','D','\t','x'], termLine] _ rfl (by decide)

/-- C10: the duplicate-ORF loader's tab filter runs on the raw line before
stripping: a line whose only tab is trailing is kept, and after stripping it
yields a one-element group holding just the prefixed canonical identifier. -/
theorem C10_trailing_tab_kept (core : Line) (h1 : '\t' ∉ core)
    (h2 : rstrip core = core) :
    convert_duplicate_orf_map_to_list [core ++ ['\t', '\n']] = [[idPfx ++ core]] := by
  unfold convert_duplicate_orf_map_to_list
  have hmem : '\t' ∈ core ++ ['\t', '\n'] := List.mem_append_right core (by decide)
  have hfil : ([core ++ ['\t', '\n']].filter (fun l => decide ('\t' ∈ l))) =
      [core ++ ['\t', '\n']] := by
    simp [List.filter_cons, hmem]
  rw [hfil]
  have hrs : rstrip (core ++ ['\t', '\n']) = core := rstrip_append_tab_nl core h2
  simp only [List.map_cons, List.map_nil, hrs]
  rw [splitTab_no_tab core h1]
  rfl

/-- C10 witness: the line `"A\t\n"` is kept and yields the single group
`["ID\tA"]`. -/
theorem C10_trailing_tab_kept_witness :
    convert_duplicate_orf_map_to_list [['A'] ++ ['\t', '\n']] = [[idPfx ++ ['A']]] :=
  C10_trailing_tab_kept ['A'] (by decide) rfl

end MAGSplitter
